import Mathlib

/-!
Verification of the control-flow-graph path-enumeration and incremental
state-replay engine of `kordesii/utils/function_tracing/flowchart.py`.

The Python module is shallowly embedded:

* `BasicBlock` models an IDA basic block as pulled out of the host provider:
  a half-open address range `[start_ea, end_ea)` together with the start
  addresses of its predecessor and successor blocks.
* `FlowGraph` models the per-function `FlowChart`: the ordered block list
  (index 0 = entry) plus the function bounds used by `paths_to_ea`.
* Generators are modelled by the finite list of the values they yield; a
  partially consumed generator is represented by the list of its remaining
  yields.  A consumer that draws at most `n` items is modelled by an explicit
  draw count `n`.
* Exceptions (`ValueError`, `KeyError`, the `AttributeError` raised by
  calling a method on `None`, the `assert`, and the `TypeError` from
  comparing or using `None`) are modelled with `Except PyErr`.
* `ProcessorContext` objects live in an explicit store (`Store`), so that
  `deepcopy` (a fresh cell) is distinguishable from reference sharing.
  The external emulator (`processor.execute`) is modelled as the test double
  that appends the executed instruction address to the context's trace.
-/

/-- Kinds of Python exceptions the embedded code can raise. -/
inductive PyErr : Type where
  | valueError
  | keyError
  | attributeError
  | assertionError
  | typeError
  | indexError
deriving DecidableEq, Repr

/-- An IDA basic block, as copied out of the host CFG provider: half-open
address range `[start_ea, end_ea)` plus predecessor/successor edges given by
the start addresses of the neighbouring blocks. -/
structure BasicBlock : Type where
  start_ea : Nat
  end_ea : Nat
  preds : List Nat
  succs : List Nat
deriving DecidableEq, Repr

/-- The function graph (`FlowChart`): ordered blocks (index 0 = entry) and
the owning function's bounds `f.start_ea`/`f.end_ea`. -/
structure FlowGraph : Type where
  blocks : List BasicBlock
  func_start : Nat
  func_end : Nat
deriving DecidableEq, Repr

/-- Resolve a block's predecessor edges to blocks of the graph
(`cur_block.preds()`); the provider hands back blocks of the same graph. -/
def predBlocks (g : FlowGraph) (b : BasicBlock) : List BasicBlock :=
  g.blocks.filter (fun p => b.preds.contains p.start_ea)

/-- Resolve a block's successor edges to blocks of the graph
(`cur_block.succs()`). -/
def succBlocks (g : FlowGraph) (b : BasicBlock) : List BasicBlock :=
  g.blocks.filter (fun p => b.succs.contains p.start_ea)

/-- Model of `FlowChart.find_block`: first block whose range contains `ea`, if any. -/
def find_block (g : FlowGraph) (ea : Nat) : Option BasicBlock :=
  g.blocks.find? (fun b => decide (b.start_ea ≤ ea ∧ ea < b.end_ea))

/-- Python truthiness of an optional integer argument (`if start_ea:`):
`None` and `0` are falsy. -/
def truthy : Option Nat → Bool
  | none => false
  | some n => decide (n ≠ 0)

/-- Sort blocks ascending by `start_ea` (the `sorted(..., key=attrgetter("start_ea"))`
calls); Python's sort is stable, as is `mergeSort`. -/
def sortAsc (l : List BasicBlock) : List BasicBlock :=
  l.mergeSort (fun a b => decide (a.start_ea ≤ b.start_ea))

/-- Sort blocks descending by `start_ea`
(`sorted(..., key=attrgetter("start_ea"), reverse=True)`). -/
def sortDesc (l : List BasicBlock) : List BasicBlock :=
  l.mergeSort (fun a b => decide (b.start_ea ≤ a.start_ea))

/-- A `ProcessorContext` test double: the trace of instruction addresses the
emulator has applied to it, in order. -/
abbrev Trace := List Nat

/-- Heap of live `ProcessorContext` objects; a context reference is an index. -/
abbrev Store := List Trace

/-- Dereference a context (out-of-store reads return the empty trace;
they do not occur on reachable states). -/
def readRef (st : Store) (r : Nat) : Trace :=
  st.getD r []

/-- Mutate a context object in place. -/
def writeRef (st : Store) (r : Nat) (v : Trace) : Store :=
  st.set r v

/-- Allocate a fresh context object holding `v`. -/
def allocRef (st : Store) (v : Trace) : Store × Nat :=
  (st ++ [v], st.length)

/-- Model of `processor.execute(context, ip)`: the test double appends `ip` to the
context's trace, mutating the referenced object. -/
def execIp (st : Store) (r : Nat) (ip : Nat) : Store :=
  writeRef st r (readRef st r ++ [ip])

/-- Model of `deepcopy` of an optional context: `deepcopy(None)` is `None`, otherwise
a fresh object with the same value. -/
def deepcopyOpt (st : Store) (c : Option Nat) : Option Nat × Store :=
  match c with
  | none => (none, st)
  | some r =>
    let p := allocRef st (readRef st r)
    (some p.2, p.1)

/-- Model of `idautils.Heads(lo, hi)` over the instruction stream `insns` (the sorted
list of instruction head addresses): heads in `[lo, hi)`. -/
def headsIn (insns : List Nat) (lo hi : Nat) : List Nat :=
  insns.filter (fun a => decide (lo ≤ a ∧ a < hi))

/-- Model of `idc.next_head(ea)`: the first instruction head strictly after `ea`,
if any. -/
def nextHead (insns : List Nat) (ea : Nat) : Option Nat :=
  insns.find? (fun a => decide (ea < a))

/-- Weight of a worklist entry in the reverse-traversal termination measure:
followed predecessors have strictly smaller `start_ea`, and at most
`g.blocks.length` of them are pushed per step. -/
def blockWeight (g : FlowGraph) (b : BasicBlock) : Nat :=
  (g.blocks.length + 2) ^ (b.start_ea + 1)

/-- Total weight of a reverse-traversal worklist. -/
def sumWeight (g : FlowGraph) (wl : List BasicBlock) : Nat :=
  (wl.map (blockWeight g)).sum

/-- The predecessors a reverse traversal actually follows: sorted descending
by `start_ea` and kept only when strictly less than the current block's
`start_ea` (the loop-suppression rule). -/
def revPreds (g : FlowGraph) (cur : BasicBlock) : List BasicBlock :=
  (sortDesc (predBlocks g cur)).filter (fun p => decide (p.start_ea < cur.start_ea))

/-- Model of the `FlowChart._dfs_reverse` worklist loop: pop the front, prepend the
filtered predecessors, yield every popped block (no visited set). -/
def dfsRevLoop (g : FlowGraph) (wl : List BasicBlock) : List BasicBlock :=
  match wl with
  | [] => []
  | cur :: rest => cur :: dfsRevLoop g (revPreds g cur ++ rest)
termination_by sumWeight g wl
decreasing_by
  simp only [sumWeight, List.map_append, List.sum_append, List.map_cons, List.sum_cons]
  have hlen : (revPreds g cur).length ≤ g.blocks.length := by
    calc (revPreds g cur).length
        ≤ (sortDesc (predBlocks g cur)).length := (List.filter_sublist _).length_le
      _ = (predBlocks g cur).length := List.length_mergeSort _
      _ ≤ g.blocks.length := (List.filter_sublist _).length_le
  have hbound : ∀ x ∈ (revPreds g cur).map (blockWeight g),
      x ≤ (g.blocks.length + 2) ^ cur.start_ea := by
    intro x hx
    obtain ⟨p, hp, rfl⟩ := List.mem_map.mp hx
    have hlt : p.start_ea < cur.start_ea := by
      have := (List.mem_filter.mp hp).2
      simpa using this
    exact Nat.pow_le_pow_right (by omega) (by omega)
  have hsum := List.sum_le_card_nsmul _ _ hbound
  rw [List.length_map] at hsum
  have : ((revPreds g cur).map (blockWeight g)).sum
      < (g.blocks.length + 2) ^ (cur.start_ea + 1) := by
    calc ((revPreds g cur).map (blockWeight g)).sum
        ≤ (revPreds g cur).length * (g.blocks.length + 2) ^ cur.start_ea := by
          simpa [smul_eq_mul] using hsum
      _ ≤ g.blocks.length * (g.blocks.length + 2) ^ cur.start_ea :=
          Nat.mul_le_mul_right _ hlen
      _ < (g.blocks.length + 2) * (g.blocks.length + 2) ^ cur.start_ea := by
          have : 0 < (g.blocks.length + 2) ^ cur.start_ea := Nat.pos_pow_of_pos _ (by omega)
          exact Nat.mul_lt_mul_of_lt_of_le (by omega) (le_refl _) this
      _ = (g.blocks.length + 2) ^ (cur.start_ea + 1) := by ring
  simp only [blockWeight]
  omega

/-- Model of the `FlowChart._bfs_reverse` worklist loop: like the DFS variant, but the
filtered predecessors are appended at the back. -/
def bfsRevLoop (g : FlowGraph) (wl : List BasicBlock) : List BasicBlock :=
  match wl with
  | [] => []
  | cur :: rest => cur :: bfsRevLoop g (rest ++ revPreds g cur)
termination_by sumWeight g wl
decreasing_by
  simp only [sumWeight, List.map_append, List.sum_append, List.map_cons, List.sum_cons]
  have hlen : (revPreds g cur).length ≤ g.blocks.length := by
    calc (revPreds g cur).length
        ≤ (sortDesc (predBlocks g cur)).length := (List.filter_sublist _).length_le
      _ = (predBlocks g cur).length := List.length_mergeSort _
      _ ≤ g.blocks.length := (List.filter_sublist _).length_le
  have hbound : ∀ x ∈ (revPreds g cur).map (blockWeight g),
      x ≤ (g.blocks.length + 2) ^ cur.start_ea := by
    intro x hx
    obtain ⟨p, hp, rfl⟩ := List.mem_map.mp hx
    have hlt : p.start_ea < cur.start_ea := by
      have := (List.mem_filter.mp hp).2
      simpa using this
    exact Nat.pow_le_pow_right (by omega) (by omega)
  have hsum := List.sum_le_card_nsmul _ _ hbound
  rw [List.length_map] at hsum
  have : ((revPreds g cur).map (blockWeight g)).sum
      < (g.blocks.length + 2) ^ (cur.start_ea + 1) := by
    calc ((revPreds g cur).map (blockWeight g)).sum
        ≤ (revPreds g cur).length * (g.blocks.length + 2) ^ cur.start_ea := by
          simpa [smul_eq_mul] using hsum
      _ ≤ g.blocks.length * (g.blocks.length + 2) ^ cur.start_ea :=
          Nat.mul_le_mul_right _ hlen
      _ < (g.blocks.length + 2) * (g.blocks.length + 2) ^ cur.start_ea := by
          have : 0 < (g.blocks.length + 2) ^ cur.start_ea := Nat.pos_pow_of_pos _ (by omega)
          exact Nat.mul_lt_mul_of_lt_of_le (by omega) (le_refl _) this
      _ = (g.blocks.length + 2) ^ (cur.start_ea + 1) := by ring
  simp only [blockWeight]
  omega

/-- The seed of a reverse traversal when no `start_ea` is passed:
`list(sorted(self, key=attrgetter("start_ea"), reverse=True))[-1:]`, i.e. the
last element of the descending-sorted block list (the block with the
smallest `start_ea`). -/
def revSeedDefault (g : FlowGraph) : List BasicBlock :=
  (sortDesc g.blocks).getLast?.toList

/-- Model of `FlowChart._dfs_reverse` as consumed through `dfs_iter_blocks(reverse=True)`:
seed from the block containing `start_ea` when that argument is truthy
(calling `.preds()` on a failed lookup raises `AttributeError`), otherwise
from `revSeedDefault`. -/
def dfs_reverse (g : FlowGraph) (startEa : Option Nat) : Except PyErr (List BasicBlock) :=
  if truthy startEa then
    match find_block g (startEa.getD 0) with
    | some b => .ok (dfsRevLoop g [b])
    | none => .error .attributeError
  else
    .ok (dfsRevLoop g (revSeedDefault g))

/-- Model of `FlowChart._bfs_reverse` as consumed through `bfs_iter_blocks(reverse=True)`. -/
def bfs_reverse (g : FlowGraph) (startEa : Option Nat) : Except PyErr (List BasicBlock) :=
  if truthy startEa then
    match find_block g (startEa.getD 0) with
    | some b => .ok (bfsRevLoop g [b])
    | none => .error .attributeError
  else
    .ok (bfsRevLoop g (revSeedDefault g))

/-- Number of graph blocks whose `start_ea` is not yet in `visited`; the
forward-traversal termination measure's first component. -/
def unvisitedCount (g : FlowGraph) (visited : List Nat) : Nat :=
  (g.blocks.filter (fun b => decide (b.start_ea ∉ visited))).length

/-- Model of the `FlowChart._dfs` worklist loop: pop the front, skip blocks whose
`start_ea` is in `visited`, otherwise mark visited, prepend the successors
sorted ascending by `start_ea`, update the `block_found` flag, and yield the
block when the flag is set.  The worklist invariant `hwl` (all worklist
entries are blocks of the graph) is what makes the visited set shrink the
measure. -/
def dfsLoop (g : FlowGraph) (startEa : Option Nat) (visited : List Nat)
    (wl : List BasicBlock) (found : Bool)
    (hwl : ∀ b ∈ wl, b ∈ g.blocks) : List BasicBlock :=
  match wl, hwl with
  | [], _ => []
  | cur :: rest, hwl =>
    if hv : cur.start_ea ∈ visited then
      dfsLoop g startEa visited rest found
        (fun b hb => hwl b (List.mem_cons_of_mem _ hb))
    else
      let found' := found || (match startEa with
        | some s => decide (cur.start_ea ≤ s ∧ s < cur.end_ea)
        | none => false)
      let tailOut := dfsLoop g startEa (cur.start_ea :: visited)
        (sortAsc (succBlocks g cur) ++ rest) found'
        (by
          intro b hb
          rcases List.mem_append.mp hb with h | h
          · exact (List.mem_filter.mp ((List.mem_mergeSort).mp h)).1
          · exact hwl b (List.mem_cons_of_mem _ h))
      if found' then cur :: tailOut else tailOut
termination_by (unvisitedCount g visited, wl.length)
decreasing_by
  · apply Prod.Lex.right
    simp
  · apply Prod.Lex.left
    simp only [unvisitedCount]
    have hsub : ∀ b : BasicBlock, decide (b.start_ea ∉ (cur.start_ea :: visited)) = true →
        decide (b.start_ea ∉ visited) = true := by
      intro b hb
      simp only [decide_eq_true_eq, List.mem_cons] at hb ⊢
      exact fun h => hb (Or.inr h)
    have heq : g.blocks.filter (fun b => decide (b.start_ea ∉ (cur.start_ea :: visited)))
        = (g.blocks.filter (fun b => decide (b.start_ea ∉ visited))).filter
            (fun b => decide (b.start_ea ∉ (cur.start_ea :: visited))) := by
      rw [List.filter_filter]
      apply List.filter_congr
      intro b _
      cases hb : decide (b.start_ea ∉ (cur.start_ea :: visited)) with
      | true => simp [hsub b hb]
      | false => simp
    rw [heq]
    apply List.length_filter_lt_length_iff_exists.mpr
    refine ⟨cur, List.mem_filter.mpr ⟨hwl cur (List.mem_cons_self _ _), by simpa using hv⟩, ?_⟩
    simp

/-- Model of `FlowChart._dfs` as consumed through `dfs_iter_blocks(reverse=False)`:
worklist seeded with the entry block `self[0]`, visited set empty, and the
`block_found` flag true exactly when no `start_ea` was requested
(`block_found = start_ea is None`). -/
def dfs_forward (g : FlowGraph) (startEa : Option Nat) : List BasicBlock :=
  dfsLoop g startEa [] (g.blocks.take 1) startEa.isNone
    (fun b hb => List.take_subset _ _ hb)

/-- A `PathBlock`: one node of a linked path from a block back to the
function entry.  `context`/`context_ea` are the lazily filled emulation
cache (`_context` is a reference into the `Store`, `_context_ea` the
address the context has been filled to, exclusive). -/
inductive PathBlock : Type where
  | mk (bb : BasicBlock) (prev : Option PathBlock)
       (context : Option Nat) (context_ea : Option Nat)
deriving Repr

/-- The block of a path node (`self.bb`). -/
def PathBlock.bb : PathBlock → BasicBlock
  | .mk b _ _ _ => b

/-- The parent link of a path node (`self.prev`). -/
def PathBlock.prev : PathBlock → Option PathBlock
  | .mk _ p _ _ => p

/-- The cached context reference of a path node (`self._context`). -/
def PathBlock.context : PathBlock → Option Nat
  | .mk _ _ c _ => c

/-- The cached fill point of a path node (`self._context_ea`). -/
def PathBlock.context_ea : PathBlock → Option Nat
  | .mk _ _ _ e => e

/-- The chain of block start addresses along a path, root (entry side)
first and the node's own block last. -/
def PathBlock.chain : PathBlock → List Nat
  | .mk b p _ _ =>
    (match p with
     | none => []
     | some q => q.chain) ++ [b.start_ea]

/-- The root of a path: the node reached by following `prev` links. -/
def PathBlock.root : PathBlock → PathBlock
  | .mk b none c e => .mk b none c e
  | .mk _ (some q) _ _ => q.root

/-- The per-graph path cache (`_path_cache`): association list from a
block's `start_ea` to the list of discovered chains ending there, in
discovery order.  Python uses `defaultdict(list)`; a missing key reads as
the empty list. -/
abbrev PathCache := List (Nat × List PathBlock)

/-- Read a cache entry (missing key = empty list, as for `defaultdict`). -/
def cacheGet (c : PathCache) (k : Nat) : List PathBlock :=
  match c.find? (fun kv => kv.1 == k) with
  | some kv => kv.2
  | none => []

/-- Replace the entry for `k` (or insert it at the back). -/
def cacheSet (c : PathCache) (k : Nat) (v : List PathBlock) : PathCache :=
  if (c.find? (fun kv => kv.1 == k)).isSome then
    c.map (fun kv => if kv.1 == k then (kv.1, v) else kv)
  else
    c ++ [(k, v)]

mutual

/-- Model of `FlowChart._build_path`.  The shared mutable `visited` set is passed
explicitly: a call adds its own block's `start_ea` on entry and the set is
restored on exit, so recursive calls see exactly `cur.start_ea :: visited0`.
When the per-block cache is non-empty, the cached chains are yielded and no
recursion happens (`if not len(path_cache)`); a block with no parents
yields a single rootless `PathBlock`; otherwise the parents are folded. -/
def buildPath (g : FlowGraph) (cache : PathCache) (cur : BasicBlock)
    (visited0 : List Nat) : List PathBlock :=
  let path_cache := cacheGet cache cur.start_ea
  if path_cache.length ≠ 0 then
    path_cache
  else
    let cb_parents := predBlocks g cur
    if cb_parents.length = 0 then
      [PathBlock.mk cur none none none]
    else
      buildPathFold g cache cur (cur.start_ea :: visited0) cb_parents
        (List.mem_cons_self _ _)
termination_by (cur.start_ea, 1, 0)
decreasing_by
  apply Prod.Lex.right
  apply Prod.Lex.left
  omega

/-- The loop over `cb_parents` inside `_build_path`: a predecessor is
skipped when its `start_ea` is already visited or greater than the current
block's (the loop-suppression rule); otherwise every chain reaching the
predecessor is wrapped in a fresh `PathBlock` with the current block.
`hv` records that the current block's own `start_ea` is in `visited`,
which is how the source excludes self-loops and what makes the recursion
well-founded. -/
def buildPathFold (g : FlowGraph) (cache : PathCache) (cur : BasicBlock)
    (visited : List Nat) (parents : List BasicBlock)
    (hv : cur.start_ea ∈ visited) : List PathBlock :=
  match parents with
  | [] => []
  | blk :: rest =>
    (if hskip : blk.start_ea ∈ visited ∨ cur.start_ea < blk.start_ea then
      []
     else
      (buildPath g cache blk visited).map
        (fun p => PathBlock.mk cur (some p) none none)) ++
    buildPathFold g cache cur visited rest hv
termination_by (cur.start_ea, 0, parents.length)
decreasing_by
  · rename_i curOuter
    apply Prod.Lex.left
    have h1 : cur.start_ea ∉ visited := fun h => hskip (Or.inl h)
    have h2 : ¬ curOuter.start_ea < cur.start_ea := fun h => hskip (Or.inr h)
    have h3 : cur.start_ea ≠ curOuter.start_ea := fun h => h1 (h ▸ hv)
    omega
  · apply Prod.Lex.right
    apply Prod.Lex.right
    simp

end

/-- The enumerator state of a `FlowChart`: the per-block chain cache
(`_path_cache`) and the per-block resumable generator cache (`_gen_cache`).
A generator is modelled by the list of its remaining yields; a key that is
present with an empty list is an exhausted — but still cached — generator
(a generator object is always truthy in `if not path_generator`). -/
structure FCState : Type where
  path_cache : PathCache
  gen_cache : List (Nat × List PathBlock)
deriving Repr

/-- The state of a freshly constructed `FlowChart`: both caches empty. -/
def freshFC : FCState := ⟨[], []⟩

/-- Look up a resumable generator (`self._gen_cache.get(block.start_ea)`). -/
def genGet (c : List (Nat × List PathBlock)) (k : Nat) : Option (List PathBlock) :=
  (c.find? (fun kv => kv.1 == k)).map (fun kv => kv.2)

/-- Store a resumable generator under a key. -/
def genSet (c : List (Nat × List PathBlock)) (k : Nat) (v : List PathBlock) :
    List (Nat × List PathBlock) :=
  if (c.find? (fun kv => kv.1 == k)).isSome then
    c.map (fun kv => if kv.1 == k then (kv.1, v) else kv)
  else
    c ++ [(k, v)]

/-- Append each drawn path to `_path_cache[path.bb.start_ea]`, in order
(`self._path_cache[path.bb.start_ea].append(path)`). -/
def cacheDrawn (c : PathCache) (drawn : List PathBlock) : PathCache :=
  drawn.foldl (fun acc p => cacheSet acc p.bb.start_ea (cacheGet acc p.bb.start_ea ++ [p])) c

/-- Model of `FlowChart.get_paths(ea)` consumed for at most `n` items.  The body of
the generator runs only when the consumer draws (`n = 0` touches nothing).
`find_block` failing hands `None` to `block.start_ea`, an `AttributeError`.
Cached chains are yielded first in insertion order; then the resumable
generator for the block (created on first use against the current
`_path_cache`) supplies further chains, each appended to the cache keyed by
its own block before being yielded. -/
def get_paths (g : FlowGraph) (s : FCState) (ea : Nat) (n : Nat) :
    Except PyErr (List PathBlock × FCState) :=
  if n = 0 then .ok ([], s)
  else
    match find_block g ea with
    | none => .error .attributeError
    | some block =>
      let cached := cacheGet s.path_cache block.start_ea
      if n ≤ cached.length then
        .ok (cached.take n, s)
      else
        let genAndState : List PathBlock × FCState :=
          match genGet s.gen_cache block.start_ea with
          | some rem => (rem, s)
          | none =>
            let rem := buildPath g s.path_cache block []
            (rem, { s with gen_cache := genSet s.gen_cache block.start_ea rem })
        let gen := genAndState.1
        let s1 := genAndState.2
        let drawn := gen.take (n - cached.length)
        let s2 : FCState :=
          { path_cache := cacheDrawn s1.path_cache drawn,
            gen_cache := genSet s1.gen_cache block.start_ea (gen.drop (n - cached.length)) }
        .ok (cached ++ drawn, s2)

mutual

/-- Model of `FlowChart._paths_to_ea`: recursive forward DFS from `cur` that yields a
copy of the current path whenever the current block contains `ea`.  The
shared mutable `visited`/`cur_path` are passed explicitly: the recursion
sees `cur.start_ea :: visited` and `cur_path ++ [cur]`, both restored on
exit.  `hcur`/`hnv` record the loop invariants (the current block belongs
to the graph and is not yet visited) that bound the recursion depth. -/
def pathsToEaFrom (g : FlowGraph) (ea : Nat) (cur : BasicBlock)
    (visited : List Nat) (cur_path : List BasicBlock)
    (hcur : cur ∈ g.blocks) (hnv : cur.start_ea ∉ visited) :
    List (List BasicBlock) :=
  let visited' := cur.start_ea :: visited
  let cur_path' := cur_path ++ [cur]
  (if cur.start_ea ≤ ea ∧ ea < cur.end_ea then [cur_path'] else []) ++
  pathsToEaSuccs g ea visited' cur_path' (succBlocks g cur)
    (fun b hb => (List.mem_filter.mp hb).1)
termination_by (unvisitedCount g visited, 0)
decreasing_by
  apply Prod.Lex.left
  simp only [unvisitedCount]
  have heq : g.blocks.filter (fun b => decide (b.start_ea ∉ (cur.start_ea :: visited)))
      = (g.blocks.filter (fun b => decide (b.start_ea ∉ visited))).filter
          (fun b => decide (b.start_ea ∉ (cur.start_ea :: visited))) := by
    rw [List.filter_filter]
    apply List.filter_congr
    intro b _
    cases hb : decide (b.start_ea ∉ (cur.start_ea :: visited)) with
    | true =>
      have : decide (b.start_ea ∉ visited) = true := by
        simp only [decide_eq_true_eq, List.mem_cons] at hb ⊢
        exact fun h => hb (Or.inr h)
      simp [this]
    | false => simp
  rw [heq]
  apply List.length_filter_lt_length_iff_exists.mpr
  refine ⟨cur, List.mem_filter.mpr ⟨hcur, by simpa using hnv⟩, ?_⟩
  simp

/-- The `for block in cur_block.succs()` loop inside `_paths_to_ea`:
already-visited successors are skipped, the rest are recursed into. -/
def pathsToEaSuccs (g : FlowGraph) (ea : Nat) (visited : List Nat)
    (cur_path : List BasicBlock) (succsList : List BasicBlock)
    (hs : ∀ b ∈ succsList, b ∈ g.blocks) : List (List BasicBlock) :=
  match succsList, hs with
  | [], _ => []
  | blk :: rest, hs =>
    (if hvb : blk.start_ea ∈ visited then
      []
     else
      pathsToEaFrom g ea blk visited cur_path
        (hs blk (List.mem_cons_self _ _)) hvb) ++
    pathsToEaSuccs g ea visited cur_path rest
      (fun b hb => hs b (List.mem_cons_of_mem _ hb))
termination_by (unvisitedCount g visited, succsList.length + 1)
decreasing_by
  · apply Prod.Lex.right
    omega
  · apply Prod.Lex.right
    simp

end

/-- Model of `FlowChart.paths_to_ea(ea)`: raises `ValueError` when `ea` lies outside
the function bounds (on the first draw — the body is a generator), and
otherwise enumerates, by forward DFS from the entry block `self[0]`, every
block path from the entry to a block containing `ea`.  An empty graph would
fail the `self[0]` subscript. -/
def paths_to_ea (g : FlowGraph) (ea : Nat) : Except PyErr (List (List BasicBlock)) :=
  if g.func_start ≤ ea ∧ ea < g.func_end then
    match hb : g.blocks with
    | [] => .error .indexError
    | b0 :: _ =>
      .ok (pathsToEaFrom g ea b0 [] [] (by rw [hb]; exact List.mem_cons_self _ _)
        (List.not_mem_nil _))
  else
    .error .valueError

/-- The exclusive endpoint `cpu_context` fills to: the block's `end_ea`
when no address is given, else `idc.next_head(ea)` (the `assert` fires when
that is `None`). -/
def endOf (insns : List Nat) (bb : BasicBlock) (ea : Option Nat) : Option Nat :=
  match ea with
  | none => some bb.end_ea
  | some a => nextHead insns a

/-- The `for ip in idautils.Heads(self._context_ea, end): processor.execute(...)`
loop: applies every head in `[lo, hi)` to the context, returning the new
store and the number of `execute` calls.  Running instructions against a
`None` context (possible only from degenerate states) raises. -/
def fillSteps (insns : List Nat) (ctx : Option Nat) (lo hi : Nat) (st : Store) :
    Except PyErr (Store × Nat) :=
  let ips := headsIn insns lo hi
  if ips.isEmpty then .ok (st, 0)
  else
    match ctx with
    | none => .error .typeError
    | some r => .ok (ips.foldl (fun s ip => execIp s r ip) st, ips.length)

mutual

/-- Model of `PathBlock.cpu_context(ea)`.  Returns the (copied) context reference,
the updated node (its caches, and its parent's, may have been filled), the
new store, and the number of `processor.execute` calls made.  Mirrors the
source: `KeyError` when `ea` is given but outside the block; `end` from
`endOf` (assert on `None`); fast path when `_context_ea == end`; otherwise
re-initialise from the parent's context (or a fresh `ProcessorContext`)
when there is no context yet or the fill point lies past `end`
(`self._context_ea > end`, a `TypeError` on a `None` fill point), then
replay the heads from the fill point up to `end`; always return a
`deepcopy` of the cached context. -/
def cpu_context (insns : List Nat) (pb : PathBlock) (ea : Option Nat) (st : Store) :
    Except PyErr (Option Nat × PathBlock × Store × Nat) :=
  match pb with
  | .mk bb prev ctx0 ctxEa0 =>
    let inRange : Bool := match ea with
      | none => true
      | some a => decide (bb.start_ea ≤ a ∧ a < bb.end_ea)
    if inRange = false then .error .keyError
    else
      match endOf insns bb ea with
      | none => .error .assertionError
      | some endA =>
        if ctxEa0 = some endA then
          let rs := deepcopyOpt st ctx0
          .ok (rs.1, .mk bb prev ctx0 ctxEa0, rs.2, 0)
        else
          let needRe : Except PyErr Bool :=
            if ctx0.isNone then .ok true
            else match ctxEa0 with
              | some c => .ok (decide (endA < c))
              | none => .error .typeError
          match needRe with
          | .error e => .error e
          | .ok b =>
            match (if b then ctxInit insns prev st else .ok (ctx0, prev, st, 0)) with
            | .error e => .error e
            | .ok (ctx1, prev1, stA, cA) =>
              let fillFrom := if b then bb.start_ea else ctxEa0.getD 0
              match fillSteps insns ctx1 fillFrom endA stA with
              | .error e => .error e
              | .ok (stB, cB) =>
                let rs := deepcopyOpt stB ctx1
                .ok (rs.1, .mk bb prev1 ctx1 (some endA), rs.2, cA + cB)
termination_by (sizeOf pb, 0)

/-- Re-initialisation of a node's context: from the parent's
`cpu_context()` result when there is a parent (`self._context =
self.prev.cpu_context()` — note that call returns a `deepcopy`, so filling
this node never mutates the parent's cache), else a fresh
`ProcessorContext()`. -/
def ctxInit (insns : List Nat) (prev : Option PathBlock) (st : Store) :
    Except PyErr (Option Nat × Option PathBlock × Store × Nat) :=
  match prev with
  | some p =>
    match cpu_context insns p none st with
    | .error e => .error e
    | .ok (rp, p', st', cnt) => .ok (rp, some p', st', cnt)
  | none =>
    let rs := allocRef st []
    .ok (some rs.2, none, rs.1, 0)
termination_by (sizeOf prev, 0)

end

/-- Store-validity of a path node: every cached context reference along the
chain points into the store.  All states reachable from fresh nodes
satisfy this. -/
def pbValid (pb : PathBlock) (st : Store) : Bool :=
  match pb with
  | .mk _ prev c _ =>
    (match c with
     | none => true
     | some r => decide (r < st.length)) &&
    (match prev with
     | none => true
     | some p => pbValid p st)

/-- Does every chain yielded by a `get_paths` result start at the graph's
entry block?  (Vacuously true for an error result.) -/
def allStartAtEntry (g : FlowGraph) (r : Except PyErr (List PathBlock × FCState)) : Bool :=
  match r with
  | .ok (out, _) => out.all (fun p => p.chain.head? == (g.blocks.head?.map (fun b => b.start_ea)))
  | .error _ => true

/-- The diamond graph of the spec's concrete scenario: blocks
`A(entry) → B`, `A → C`, `B → D`, `C → D`, with `A = [0,10)`, `B = [10,20)`,
`C = [20,30)`, `D = [30,40)`. -/
def gDiamond : FlowGraph :=
  ⟨[⟨0, 10, [], [10, 20]⟩,
    ⟨10, 20, [0], [30]⟩,
    ⟨20, 30, [0], [30]⟩,
    ⟨30, 40, [10, 20], []⟩], 0, 40⟩

/-- The diamond graph extended with one extra block `E = [40,50)` fed by
`D`, used to exhibit cache-truncation across targets. -/
def gDiamondE : FlowGraph :=
  ⟨[⟨0, 10, [], [10, 20]⟩,
    ⟨10, 20, [0], [30]⟩,
    ⟨20, 30, [0], [30]⟩,
    ⟨30, 40, [10, 20], [40]⟩,
    ⟨40, 50, [30], []⟩], 0, 50⟩

/-- A graph whose target block `T = [20,30)` has two predecessors without
predecessors of their own: the entry `A = [0,10)` and the unreachable block
`X = [10,20)`. -/
def gNoPredRoot : FlowGraph :=
  ⟨[⟨0, 10, [], [20]⟩,
    ⟨10, 20, [], [20]⟩,
    ⟨20, 30, [0, 10], []⟩], 0, 30⟩

/-- A two-block edgeless graph, enough to watch the default reverse-traversal
seed pick a block: `P = [16,32)` and `Q = [32,48)`. -/
def gTwo : FlowGraph :=
  ⟨[⟨16, 32, [], []⟩, ⟨32, 48, [], []⟩], 16, 48⟩

/-- A two-block graph with a back-edge: the block `[10,20)` has a single
predecessor `[20,30)` whose `start_ea` is larger (and vice versa a
successor), forming a cycle. -/
def gBack : FlowGraph :=
  ⟨[⟨10, 20, [20], [20]⟩, ⟨20, 30, [10], [10]⟩], 10, 30⟩

/-- The lower block of `gBack`. -/
def bBack : BasicBlock := ⟨10, 20, [20], [20]⟩

/-- The chain `A → B → D` of `gDiamondE` as a `PathBlock`. -/
def pABDE : PathBlock :=
  .mk ⟨30, 40, [10, 20], [40]⟩
    (some (.mk ⟨10, 20, [0], [30]⟩
      (some (.mk ⟨0, 10, [], [10, 20]⟩ none none none)) none none)) none none

/-- The chain `A → C → D` of `gDiamondE` as a `PathBlock`. -/
def pACDE : PathBlock :=
  .mk ⟨30, 40, [10, 20], [40]⟩
    (some (.mk ⟨20, 30, [0], [30]⟩
      (some (.mk ⟨0, 10, [], [10, 20]⟩ none none none)) none none)) none none

/-- The enumerator state of `gDiamondE` after drawing exactly one path to
block `D`: the chain through `B` is cached, the chain through `C` is still
pending inside the resumable generator. -/
def s1C9 : FCState := ⟨[(30, [pABDE])], [(30, [pACDE])]⟩

/-- The enumerator state reached from a fresh `FlowChart` after a single
`get_paths` call for a block has been consumed for `n` items: the first
`n` discovered chains are cached, the generator holds the rest.  (`n = 0`
never runs the generator body, leaving the fresh state.) -/
def afterState (g : FlowGraph) (block : BasicBlock) (n : Nat) : FCState :=
  if n = 0 then freshFC
  else ⟨cacheDrawn [] ((buildPath g [] block []).take n),
        [(block.start_ea, (buildPath g [] block []).drop n)]⟩

/-- The chain `A → B → D` of `gDiamond` as a `PathBlock`. -/
def pABD : PathBlock :=
  .mk ⟨30, 40, [10, 20], []⟩
    (some (.mk ⟨10, 20, [0], [30]⟩
      (some (.mk ⟨0, 10, [], [10, 20]⟩ none none none)) none none)) none none

/-- The chain `A → C → D` of `gDiamond` as a `PathBlock`. -/
def pACD : PathBlock :=
  .mk ⟨30, 40, [10, 20], []⟩
    (some (.mk ⟨20, 30, [0], [30]⟩
      (some (.mk ⟨0, 10, [], [10, 20]⟩ none none none)) none none)) none none

/-! Shared lemmas. -/

theorem find_block_mem {g : FlowGraph} {ea : Nat} {b : BasicBlock}
    (h : find_block g ea = some b) : b ∈ g.blocks :=
  List.mem_of_find?_eq_some h

theorem find_block_contains {g : FlowGraph} {ea : Nat} {b : BasicBlock}
    (h : find_block g ea = some b) : b.start_ea ≤ ea ∧ ea < b.end_ea := by
  have := List.find?_some h
  simpa using this

theorem cacheGet_nil (k : Nat) : cacheGet [] k = [] := rfl

mutual

theorem buildPath_nil_shape (g : FlowGraph) (cur : BasicBlock) (visited0 : List Nat) :
    ∀ p ∈ buildPath g [] cur visited0,
      p.bb = cur ∧ predBlocks g p.root.bb = [] ∧ (p.root.bb = cur ∨ p.root.bb ∈ g.blocks) := by
  intro p hp
  rw [buildPath] at hp
  simp only [cacheGet_nil, List.length_nil, ne_eq, not_true_eq_false] at hp
  rw [if_neg (by simp)] at hp
  split at hp
  · next hlen =>
    simp only [List.mem_singleton] at hp
    subst hp
    refine ⟨rfl, ?_, Or.inl rfl⟩
    have : predBlocks g cur = [] := List.length_eq_zero.mp hlen
    simpa [PathBlock.root, PathBlock.bb] using this
  · next hlen =>
    have := buildPathFold_nil_shape g cur (cur.start_ea :: visited0)
      (predBlocks g cur) (List.mem_cons_self _ _)
      (fun b hb => (List.mem_filter.mp hb).1) p hp
    exact ⟨this.1, this.2.1, Or.inr this.2.2⟩
termination_by (cur.start_ea, 1, 0)
decreasing_by
  apply Prod.Lex.right
  apply Prod.Lex.left
  omega

theorem buildPathFold_nil_shape (g : FlowGraph) (cur : BasicBlock)
    (visited : List Nat) (parents : List BasicBlock)
    (hv : cur.start_ea ∈ visited) (hg : ∀ b ∈ parents, b ∈ g.blocks) :
    ∀ p ∈ buildPathFold g [] cur visited parents hv,
      p.bb = cur ∧ predBlocks g p.root.bb = [] ∧ p.root.bb ∈ g.blocks := by
  intro p hp
  match parents, hg with
  | [], _ => simp [buildPathFold] at hp
  | blk :: rest, hg =>
    rw [buildPathFold] at hp
    rcases List.mem_append.mp hp with h | h
    · split at h
      · simp at h
      · next hskip =>
        obtain ⟨q, hq, rfl⟩ := List.mem_map.mp h
        have hrec := buildPath_nil_shape g blk visited q hq
        have hq1 : q.bb = blk := hrec.1
        have hblk : blk ∈ g.blocks := hg blk (List.mem_cons_self _ _)
        have hroot : (PathBlock.mk cur (some q) none none).root = q.root := by
          simp [PathBlock.root]
        refine ⟨rfl, ?_, ?_⟩
        · rw [hroot]; exact hrec.2.1
        · rw [hroot]
          rcases hrec.2.2 with h | h
          · rw [h]; exact hblk
          · exact h
    · exact buildPathFold_nil_shape g cur visited rest hv
        (fun b hb => hg b (List.mem_cons_of_mem _ hb)) p h
termination_by (cur.start_ea, 0, parents.length)
decreasing_by
  · apply Prod.Lex.left
    rename_i hif hneg hmem hright
    have hA : blk.start_ea ∉ visited := fun hh => hneg (Or.inl hh)
    have hB : ¬ cur.start_ea < blk.start_ea := fun hh => hneg (Or.inr hh)
    have hC : blk.start_ea ≠ cur.start_ea := fun hh => hA (hh ▸ hv)
    omega
  · apply Prod.Lex.right
    apply Prod.Lex.right
    simp

end

theorem genGet_nil (k : Nat) : genGet [] k = none := rfl

theorem genSet_nil (k : Nat) (v : List PathBlock) : genSet [] k v = [(k, v)] := by
  simp [genSet]

theorem genSet_single (k : Nat) (v w : List PathBlock) :
    genSet [(k, v)] k w = [(k, w)] := by
  simp [genSet]

theorem genGet_single (k : Nat) (v : List PathBlock) :
    genGet [(k, v)] k = some v := by
  simp [genGet]

theorem cacheGet_single (k : Nat) (v : List PathBlock) : cacheGet [(k, v)] k = v := by
  simp [cacheGet]

theorem cacheDrawn_single (bs : Nat) :
    ∀ (l pre : List PathBlock), (∀ p ∈ l, p.bb.start_ea = bs) →
      cacheDrawn [(bs, pre)] l = [(bs, pre ++ l)] := by
  intro l
  induction l with
  | nil => intro pre _; simp [cacheDrawn]
  | cons p l ih =>
    intro pre hall
    have hp : p.bb.start_ea = bs := hall p (List.mem_cons_self _ _)
    have step : cacheSet [(bs, pre)] p.bb.start_ea
        (cacheGet [(bs, pre)] p.bb.start_ea ++ [p]) = [(bs, pre ++ [p])] := by
      rw [hp, cacheGet_single]
      simp [cacheSet]
    calc cacheDrawn [(bs, pre)] (p :: l)
        = cacheDrawn [(bs, pre ++ [p])] l := by
          simp only [cacheDrawn, List.foldl_cons, step]
      _ = [(bs, (pre ++ [p]) ++ l)] := ih (pre ++ [p])
          (fun q hq => hall q (List.mem_cons_of_mem _ hq))
      _ = [(bs, pre ++ p :: l)] := by simp

theorem cacheDrawn_nil_of_same (bs : Nat) (l : List PathBlock)
    (hall : ∀ p ∈ l, p.bb.start_ea = bs) (hne : l ≠ []) :
    cacheDrawn [] l = [(bs, l)] := by
  match l, hne with
  | p :: l, _ =>
    have hp : p.bb.start_ea = bs := hall p (List.mem_cons_self _ _)
    have step : cacheSet [] p.bb.start_ea (cacheGet [] p.bb.start_ea ++ [p])
        = [(bs, [p])] := by
      rw [hp]
      simp [cacheSet, cacheGet]
    calc cacheDrawn [] (p :: l)
        = cacheDrawn [(bs, [p])] l := by
          simp only [cacheDrawn, List.foldl_cons, step]
      _ = [(bs, [p] ++ l)] := cacheDrawn_single bs l [p]
          (fun q hq => hall q (List.mem_cons_of_mem _ hq))
      _ = [(bs, p :: l)] := by simp

theorem cacheGet_cacheDrawn_nil (bs : Nat) (l : List PathBlock)
    (hall : ∀ p ∈ l, p.bb.start_ea = bs) :
    cacheGet (cacheDrawn [] l) bs = l := by
  match l with
  | [] => rfl
  | p :: l =>
    rw [cacheDrawn_nil_of_same bs (p :: l) hall (by simp), cacheGet_single]

theorem get_paths_fresh (g : FlowGraph) (ea n : Nat) (block : BasicBlock)
    (hf : find_block g ea = some block) :
    get_paths g freshFC ea n
      = .ok ((buildPath g [] block []).take n, afterState g block n) := by
  by_cases hn : n = 0
  · subst hn
    simp [get_paths, afterState, freshFC]
  · rw [get_paths, if_neg hn, hf]
    simp only [freshFC, cacheGet_nil, List.length_nil, Nat.le_zero, genGet_nil,
      genSet_nil, genGet_single, genSet_single, Nat.sub_zero, List.nil_append,
      if_neg hn]
    rw [afterState, if_neg hn]

theorem buildPath_keys (g : FlowGraph) (block : BasicBlock) :
    ∀ p ∈ buildPath g [] block [], p.bb.start_ea = block.start_ea := by
  intro p hp
  rw [(buildPath_nil_shape g block [] p hp).1]

theorem cacheDrawn_append (c : PathCache) (a b : List PathBlock) :
    cacheDrawn c (a ++ b) = cacheDrawn (cacheDrawn c a) b := by
  simp [cacheDrawn]

theorem get_paths_after (g : FlowGraph) (ea n1 n2 : Nat) (block : BasicBlock)
    (hf : find_block g ea = some block) (hn1 : n1 ≠ 0) :
    get_paths g (afterState g block n1) ea n2
      = .ok ((buildPath g [] block []).take n2, afterState g block (max n1 n2)) := by
  have hkeys := buildPath_keys g block
  set full := buildPath g [] block [] with hfull
  set bs := block.start_ea with hbs
  have hkeysTake : ∀ m, ∀ p ∈ full.take m, p.bb.start_ea = bs :=
    fun m p hp => hkeys p (List.take_subset m full hp)
  have hstate : afterState g block n1
      = ⟨cacheDrawn [] (full.take n1), [(bs, full.drop n1)]⟩ := by
    rw [afterState, if_neg hn1]
  have hcached : cacheGet (cacheDrawn [] (full.take n1)) bs = full.take n1 :=
    cacheGet_cacheDrawn_nil bs (full.take n1) (hkeysTake n1)
  have hlen : (full.take n1).length = min n1 full.length := List.length_take n1 full
  by_cases hn2 : n2 = 0
  · subst hn2
    rw [get_paths]
    simp
  · rw [hstate, get_paths, if_neg hn2, hf]
    simp only [hcached]
    by_cases h2 : n2 ≤ (full.take n1).length
    · rw [if_pos h2]
      have houtA : (full.take n1).take n2 = full.take n2 := by
        rw [List.take_take]
        congr 1
        omega
      have hmaxA : max n1 n2 = n1 := by omega
      rw [houtA, hmaxA, ← hstate]
    · rw [if_neg h2]
      simp only [genGet_single, genSet_single]
      set k := n2 - (full.take n1).length with hk
      have houtB : full.take n1 ++ (full.drop n1).take k = full.take (n1 + k) :=
        (List.take_add full n1 k).symm
      have htake : full.take (n1 + k) = full.take (max n1 n2) := by
        rw [List.take_eq_take]
        omega
      have hdrop : (full.drop n1).drop k = full.drop (max n1 n2) := by
        rw [List.drop_drop]
        rcases le_or_lt full.length n1 with hle | hlt
        · rw [List.drop_eq_nil_of_le (le_trans hle (by omega)),
            List.drop_eq_nil_of_le (le_trans hle (by omega))]
        · congr 1
          omega
      have hmaxne : max n1 n2 ≠ 0 := by omega
      have htake2 : full.take (max n1 n2) = full.take n2 := by
        rw [List.take_eq_take]
        omega
      rw [afterState, if_neg hmaxne]
      simp only [houtB, htake, hdrop, ← cacheDrawn_append, ← hfull, ← hbs, htake2]

theorem find_block_gDiamond (ea : Nat) (h1 : 30 ≤ ea) (h2 : ea < 40) :
    find_block gDiamond ea = some ⟨30, 40, [10, 20], []⟩ := by
  simp only [find_block, gDiamond]
  rw [List.find?_cons_of_neg _ (by simp; omega),
    List.find?_cons_of_neg _ (by simp; omega),
    List.find?_cons_of_neg _ (by simp; omega),
    List.find?_cons_of_pos _ (by simp; omega)]

theorem buildPath_gDiamond :
    buildPath gDiamond [] ⟨30, 40, [10, 20], []⟩ [] = [pABD, pACD] := by
  simp [buildPath, buildPathFold, cacheGet, predBlocks, gDiamond, pABD, pACD,
    List.filter, List.find?]

theorem chain_pABD : pABD.chain = [0, 10, 30] := by
  simp [pABD, PathBlock.chain]

theorem chain_pACD : pACD.chain = [0, 20, 30] := by
  simp [pACD, PathBlock.chain]

/-- C1: on the diamond graph `A→B, A→C, B→D, C→D`, consuming the
`get_paths` sequence for any address inside `D` for up to `n` items yields
exactly the first `n` of the two chains `[A,B,D]` and `[A,C,D]` — so the
full exhaustion yields exactly those two chains, each once and nothing
else. -/
theorem c1_diamond_paths (ea n : Nat) (h1 : 30 ≤ ea) (h2 : ea < 40) :
    ∃ out s', get_paths gDiamond freshFC ea n = .ok (out, s') ∧
      out.map PathBlock.chain = [[0, 10, 30], [0, 20, 30]].take n := by
  refine ⟨_, _, get_paths_fresh gDiamond ea n _ (find_block_gDiamond ea h1 h2), ?_⟩
  rw [buildPath_gDiamond, List.map_take]
  congr 1

/-- C1 witness: the theorem instantiated at address `0x23` inside `D` with
draw budget 5 (more than enough to exhaust the sequence). -/
theorem c1_diamond_paths_witness :
    30 ≤ 35 ∧ 35 < 40 ∧
    (∃ out s', get_paths gDiamond freshFC 35 5 = .ok (out, s') ∧
      out.map PathBlock.chain = [[0, 10, 30], [0, 20, 30]].take 5) :=
  ⟨by omega, by omega, c1_diamond_paths 35 5 (by omega) (by omega)⟩

/-- C4: two successive `get_paths` consumptions for the same address (from a
fresh `FlowChart`) see the chains in a prefix-compatible order — the `i`-th
chain of the second call equals the `i`-th chain of the first, because every
chain drawn from the shared resumable generator is appended to the per-block
cache before being yielded and cached chains replay in insertion order. -/
theorem c4_repeat_prefix_compatible (g : FlowGraph) (ea n1 n2 : Nat)
    (out1 out2 : List PathBlock) (s1 s2 : FCState)
    (h1 : get_paths g freshFC ea n1 = .ok (out1, s1))
    (h2 : get_paths g s1 ea n2 = .ok (out2, s2)) :
    ∀ i, ∀ hi1 : i < out1.length, ∀ hi2 : i < out2.length, out1[i] = out2[i] := by
  by_cases hn1 : n1 = 0
  · subst hn1
    rw [get_paths, if_pos rfl] at h1
    have hout1 : out1 = [] := by
      have := congrArg (fun r => match r with | Except.ok p => p.1 | _ => []) h1
      simpa using this.symm
    subst hout1
    intro i hi1
    simp at hi1
  · cases hf : find_block g ea with
    | none =>
      rw [get_paths, if_neg hn1, hf] at h1
      exact absurd h1 (by simp)
    | some block =>
      rw [get_paths_fresh g ea n1 block hf] at h1
      have h1' := Except.ok.inj h1
      have hout1 : out1 = (buildPath g [] block []).take n1 := congrArg Prod.fst h1'.symm
      have hs1 : s1 = afterState g block n1 := congrArg Prod.snd h1'.symm
      subst hs1
      rw [get_paths_after g ea n1 n2 block hf hn1] at h2
      have h2' := Except.ok.inj h2
      have hout2 : out2 = (buildPath g [] block []).take n2 := congrArg Prod.fst h2'.symm
      subst hout1
      subst hout2
      intro i hi1 hi2
      rw [List.getElem_take, List.getElem_take]

/-- C4 witness: the diamond graph, drawing one chain then five more for the
same address. -/
theorem c4_repeat_prefix_compatible_witness :
    ∃ out1 s1 out2 s2,
      get_paths gDiamond freshFC 35 1 = .ok (out1, s1) ∧
      get_paths gDiamond s1 35 3 = .ok (out2, s2) ∧
      ∀ i, ∀ hi1 : i < out1.length, ∀ hi2 : i < out2.length, out1[i] = out2[i] := by
  have hf : find_block gDiamond 35 = some ⟨30, 40, [10, 20], []⟩ :=
    find_block_gDiamond 35 (by omega) (by omega)
  have h1 := get_paths_fresh gDiamond 35 1 _ hf
  have h2 := get_paths_after gDiamond 35 1 3 _ hf (by omega)
  exact ⟨_, _, _, _, h1, h2,
    c4_repeat_prefix_compatible gDiamond 35 1 3 _ _ _ _ h1 h2⟩

/-- C2 counterexample: on the diamond graph, asking `get_paths` for the
out-of-function address `100` fails with `AttributeError` (from
`find_block` handing back `None`), which is not the `ValueError`-style
out-of-range failure the claim describes (and which `paths_to_ea` does
raise for the same address). -/
theorem c2_counterexample :
    get_paths gDiamond freshFC 100 1 = .error .attributeError ∧
    (Except.error PyErr.attributeError : Except PyErr (List PathBlock × FCState))
      ≠ .error .valueError ∧
    paths_to_ea gDiamond 100 = .error .valueError := by
  refine ⟨rfl, by simp, rfl⟩

/-- C2 amended: when the requested address lies outside the function bounds
of a well-formed graph (every block inside the bounds), `get_paths` does
fail before any traversal work — but with an `AttributeError` from
dereferencing the failed `find_block` lookup, not a typed out-of-range
error — while `paths_to_ea` raises `ValueError` as claimed. -/
theorem c2_amended (g : FlowGraph) (s : FCState) (ea n : Nat)
    (hwf : ∀ b ∈ g.blocks, g.func_start ≤ b.start_ea ∧ b.end_ea ≤ g.func_end)
    (hout : ea < g.func_start ∨ g.func_end ≤ ea) (hn : 1 ≤ n) :
    get_paths g s ea n = .error .attributeError ∧
    paths_to_ea g ea = .error .valueError := by
  have hfb : find_block g ea = none := by
    rw [find_block]
    apply List.find?_eq_none.mpr
    intro b hb
    have := hwf b hb
    simp only [decide_eq_true_eq]
    omega
  constructor
  · rw [get_paths, if_neg (by omega), hfb]
  · rw [paths_to_ea, if_neg (by omega)]

/-- C2 witness: the amended theorem at the two-block graph and address 100. -/
theorem c2_amended_witness :
    (∀ b ∈ gTwo.blocks, gTwo.func_start ≤ b.start_ea ∧ b.end_ea ≤ gTwo.func_end) ∧
    (100 < gTwo.func_start ∨ gTwo.func_end ≤ 100) ∧ 1 ≤ 1 ∧
    (get_paths gTwo freshFC 100 1 = .error .attributeError ∧
     paths_to_ea gTwo 100 = .error .valueError) :=
  ⟨by decide, by decide, by decide,
    c2_amended gTwo freshFC 100 1 (by decide) (by decide) (by decide)⟩

/-- C5 counterexample: in `gNoPredRoot` the target block `T` has the
unreachable no-predecessor block `X` as a parent, so `get_paths` yields the
chain `[X, T]`, which does not start at the entry block `A`: the chains are
`[[0,20],[10,20]]` and the start-at-entry check fails. -/
theorem c5_counterexample :
    allStartAtEntry gNoPredRoot (get_paths gNoPredRoot freshFC 25 10) = false ∧
    (get_paths gNoPredRoot freshFC 25 10).map (fun r => r.1.map PathBlock.chain)
      = .ok [[0, 20], [10, 20]] := by
  have hf : find_block gNoPredRoot 25 = some ⟨20, 30, [0, 10], []⟩ := rfl
  have hbuild : buildPath gNoPredRoot [] ⟨20, 30, [0, 10], []⟩ []
      = [.mk ⟨20, 30, [0, 10], []⟩ (some (.mk ⟨0, 10, [], [20]⟩ none none none)) none none,
         .mk ⟨20, 30, [0, 10], []⟩ (some (.mk ⟨10, 20, [], [20]⟩ none none none)) none none] := by
    simp [buildPath, buildPathFold, cacheGet, predBlocks, gNoPredRoot,
      List.filter, List.find?]
  have heval := get_paths_fresh gNoPredRoot 25 10 _ hf
  rw [hbuild] at heval
  rw [heval]
  constructor
  · simp [allStartAtEntry, PathBlock.chain, gNoPredRoot]
  · simp [PathBlock.chain, Except.map]

/-- C5 amended: every chain yielded by `get_paths` (from a fresh
`FlowChart`) ends at the block containing the requested address, and its
root — the node reached by following `prev` links — is a block of the graph
with no predecessors.  Only under the extra assumption that the entry block
is the unique predecessor-free block does every chain start at the entry. -/
theorem c5_amended (g : FlowGraph) (ea n : Nat) (block : BasicBlock)
    (out : List PathBlock) (s' : FCState)
    (hf : find_block g ea = some block)
    (h : get_paths g freshFC ea n = .ok (out, s')) :
    (∀ p ∈ out, p.bb = block ∧ block.start_ea ≤ ea ∧ ea < block.end_ea ∧
      predBlocks g p.root.bb = [] ∧ p.root.bb ∈ g.blocks) ∧
    ((∀ b ∈ g.blocks, predBlocks g b = [] → some b = g.blocks.head?) →
      ∀ p ∈ out, some p.root.bb = g.blocks.head?) := by
  rw [get_paths_fresh g ea n block hf] at h
  have h' := Except.ok.inj h
  have hout : out = (buildPath g [] block []).take n := congrArg Prod.fst h'.symm
  subst hout
  have hmem : ∀ p ∈ (buildPath g [] block []).take n, p ∈ buildPath g [] block [] :=
    fun p hp => List.take_subset n _ hp
  have hcontain := find_block_contains hf
  have hcur : block ∈ g.blocks := find_block_mem hf
  constructor
  · intro p hp
    have hs := buildPath_nil_shape g block [] p (hmem p hp)
    refine ⟨hs.1, hcontain.1, hcontain.2, hs.2.1, ?_⟩
    rcases hs.2.2 with hh | hh
    · rw [hh]; exact hcur
    · exact hh
  · intro huniq p hp
    have hs := buildPath_nil_shape g block [] p (hmem p hp)
    have hin : p.root.bb ∈ g.blocks := by
      rcases hs.2.2 with hh | hh
      · rw [hh]; exact hcur
      · exact hh
    exact huniq _ hin hs.2.1

/-- C5 witness: the amended theorem on the diamond graph, where the entry is
the unique predecessor-free block, so both conclusions apply. -/
theorem c5_amended_witness :
    ∃ out s', get_paths gDiamond freshFC 35 2 = .ok (out, s') ∧
      (∀ p ∈ out, p.bb = (⟨30, 40, [10, 20], []⟩ : BasicBlock) ∧
        (30 : Nat) ≤ 35 ∧ (35 : Nat) < 40 ∧
        predBlocks gDiamond p.root.bb = [] ∧ p.root.bb ∈ gDiamond.blocks) ∧
      (∀ p ∈ out, some p.root.bb = gDiamond.blocks.head?) := by
  have hf := find_block_gDiamond 35 (by omega) (by omega)
  have h := get_paths_fresh gDiamond 35 2 _ hf
  have hc := c5_amended gDiamond 35 2 _ _ _ hf h
  exact ⟨_, _, h, hc.1, hc.2 (by decide)⟩

/-- C3 (code bug): with no `start_ea`, the reverse traversals seed from
`sorted(self, key=..., reverse=True)[-1:]` — the last element of the
descending-sorted list, i.e. the block with the SMALLEST `start_ea`, not
the greatest as specified.  On the two-block graph the traversal yields
exactly the `start_ea = 16` block although `start_ea = 32` is the maximum,
making the no-argument reverse traversal degenerate (it can only ever
yield that one minimal block, whose followed predecessors would need even
smaller starts). -/
theorem c3_default_seed_is_smallest :
    dfs_reverse gTwo none = .ok [⟨16, 32, [], []⟩] ∧
    bfs_reverse gTwo none = .ok [⟨16, 32, [], []⟩] ∧
    (∀ b ∈ gTwo.blocks, 16 ≤ b.start_ea) ∧ (16 : Nat) < 32 ∧
    (∃ b ∈ gTwo.blocks, b.start_ea = 32) := by
  refine ⟨?_, ?_, by decide, by omega, by decide⟩
  · simp [dfs_reverse, truthy, revSeedDefault, sortDesc, gTwo, dfsRevLoop,
      revPreds, predBlocks, List.mergeSort, List.filter]
  · simp [bfs_reverse, truthy, revSeedDefault, sortDesc, gTwo, bfsRevLoop,
      revPreds, predBlocks, List.mergeSort, List.filter]

theorem dfsLoop_nodup (g : FlowGraph) (startEa : Option Nat)
    (visited : List Nat) (wl : List BasicBlock) (found : Bool)
    (hwl : ∀ b ∈ wl, b ∈ g.blocks) :
    ((dfsLoop g startEa visited wl found hwl).map BasicBlock.start_ea).Nodup ∧
    ∀ b ∈ dfsLoop g startEa visited wl found hwl, b.start_ea ∉ visited := by
  induction visited, wl, found, hwl using dfsLoop.induct g startEa with
  | case1 visited found hwl => rw [dfsLoop.eq_def]; simp
  | case2 visited found cur rest hwl hv hwl2 ih =>
    rw [dfsLoop.eq_def]
    dsimp only
    rw [dif_pos hv]
    exact ih
  | case3 visited found cur rest hwl hv found' hfound hwl2 ih =>
    rw [dfsLoop.eq_def]
    dsimp only
    rw [dif_neg hv, if_pos (show _ = true from hfound)]
    rcases ih with ⟨ihnodup, ihfresh⟩
    constructor
    · simp only [List.map_cons, List.nodup_cons]
      refine ⟨?_, ihnodup⟩
      intro hmem
      obtain ⟨b, hb, hbe⟩ := List.mem_map.mp hmem
      exact ihfresh b hb (hbe ▸ List.mem_cons_self _ _)
    · intro b hb
      rcases List.mem_cons.mp hb with rfl | hb
      · exact hv
      · exact fun hmem => ihfresh b hb (List.mem_cons_of_mem _ hmem)
  | case4 visited found cur rest hwl hv found' hfound hwl2 ih =>
    rw [dfsLoop.eq_def]
    dsimp only
    rw [dif_neg hv, if_neg (show ¬ _ = true from hfound)]
    rcases ih with ⟨ihnodup, ihfresh⟩
    refine ⟨ihnodup, ?_⟩
    intro b hb
    exact fun hmem => ihfresh b hb (List.mem_cons_of_mem _ hmem)

/-- C10: reverse traversal keeps no visited set — on the diamond graph the
reverse DFS from an address in `D` yields the entry block (start 0) twice,
and so does the reverse BFS — while the forward DFS yields each block's
`start_ea` at most once for every graph and optional start address, thanks
to its visited set. -/
theorem c10_reverse_duplicates :
    (dfs_reverse gDiamond (some 35)).map (fun l => l.map BasicBlock.start_ea)
      = .ok [30, 20, 0, 10, 0] ∧
    (bfs_reverse gDiamond (some 35)).map (fun l => l.map BasicBlock.start_ea)
      = .ok [30, 20, 10, 0, 0] ∧
    ¬ ([30, 20, 0, 10, 0] : List Nat).Nodup ∧
    ∀ (g : FlowGraph) (startEa : Option Nat),
      ((dfs_forward g startEa).map BasicBlock.start_ea).Nodup := by
  refine ⟨?_, ?_, by decide, ?_⟩
  · simp [dfs_reverse, truthy, find_block, gDiamond, dfsRevLoop, revPreds,
      predBlocks, sortDesc, List.mergeSort, List.filter, List.find?, Except.map]
  · simp [bfs_reverse, truthy, find_block, gDiamond, bfsRevLoop, revPreds,
      predBlocks, sortDesc, List.mergeSort, List.filter, List.find?, Except.map]
  · intro g startEa
    exact (dfsLoop_nodup g startEa [] (g.blocks.take 1) startEa.isNone _).1

/-- C9: when the per-block cache for a block is non-empty, `_build_path`
yields exactly the cached chains and derives no further ones; consequently,
on the extended diamond, partially consuming `get_paths` for `D` (one of
its two chains) and then exhausting `get_paths` for the downstream block
`E` yields only the chain through `B` — the never-cached chain through `C`
is omitted, although a fresh enumeration for `E` finds both. -/
theorem c9_cache_truncation :
    (∀ (g : FlowGraph) (cache : PathCache) (cur : BasicBlock) (visited0 : List Nat),
      cacheGet cache cur.start_ea ≠ [] →
      buildPath g cache cur visited0 = cacheGet cache cur.start_ea) ∧
    get_paths gDiamondE freshFC 35 1 = .ok ([pABDE], s1C9) ∧
    (get_paths gDiamondE s1C9 45 10).map (fun r => r.1.map PathBlock.chain)
      = .ok [[0, 10, 30, 40]] ∧
    (get_paths gDiamondE freshFC 45 10).map (fun r => r.1.map PathBlock.chain)
      = .ok [[0, 10, 30, 40], [0, 20, 30, 40]] := by
  refine ⟨?_, ?_, ?_, ?_⟩
  · intro g cache cur visited0 hne
    rw [buildPath]
    rw [if_pos (fun hh => hne (List.length_eq_zero.mp hh))]
  · have hf : find_block gDiamondE 35 = some ⟨30, 40, [10, 20], [40]⟩ := rfl
    have hbuild : buildPath gDiamondE [] ⟨30, 40, [10, 20], [40]⟩ [] = [pABDE, pACDE] := by
      simp [buildPath, buildPathFold, cacheGet, predBlocks, gDiamondE, pABDE, pACDE,
        List.filter, List.find?]
    have heval := get_paths_fresh gDiamondE 35 1 _ hf
    rw [hbuild] at heval
    rw [heval, afterState, if_neg (by omega)]
    rw [hbuild]
    simp [s1C9, cacheDrawn, cacheSet, cacheGet, pABDE, PathBlock.bb]
  · simp [get_paths, find_block, gDiamondE, s1C9, cacheGet, genGet, genSet,
      cacheDrawn, cacheSet, buildPath, buildPathFold, predBlocks, pABDE, pACDE,
      PathBlock.bb, PathBlock.chain, Except.map, List.filter, List.find?]
  · have hf : find_block gDiamondE 45 = some ⟨40, 50, [30], []⟩ := rfl
    have hbuild : buildPath gDiamondE [] ⟨40, 50, [30], []⟩ []
        = [.mk ⟨40, 50, [30], []⟩ (some pABDE) none none,
           .mk ⟨40, 50, [30], []⟩ (some pACDE) none none] := by
      simp [buildPath, buildPathFold, cacheGet, predBlocks, gDiamondE, pABDE, pACDE,
        List.filter, List.find?]
    have heval := get_paths_fresh gDiamondE 45 10 _ hf
    rw [hbuild] at heval
    rw [heval]
    simp [PathBlock.chain, pABDE, pACDE, Except.map]

/-- C9 witness: the cache-hit rule of the theorem applied to a concrete
non-empty cache entry. -/
theorem c9_cache_truncation_witness :
    cacheGet [(30, [pABDE])] 30 ≠ [] ∧
    buildPath gDiamondE [(30, [pABDE])] ⟨30, 40, [10, 20], [40]⟩ []
      = cacheGet [(30, [pABDE])] 30 := by
  refine ⟨by simp [cacheGet], ?_⟩
  exact c9_cache_truncation.1 gDiamondE [(30, [pABDE])] ⟨30, 40, [10, 20], [40]⟩ []
    (by simp [cacheGet])

theorem sumWeight_revPreds_lt (g : FlowGraph) (cur : BasicBlock) (rest : List BasicBlock) :
    sumWeight g (revPreds g cur ++ rest) < sumWeight g (cur :: rest) := by
  simp only [sumWeight, List.map_append, List.sum_append, List.map_cons, List.sum_cons]
  have hlen : (revPreds g cur).length ≤ g.blocks.length := by
    calc (revPreds g cur).length
        ≤ (sortDesc (predBlocks g cur)).length := (List.filter_sublist _).length_le
      _ = (predBlocks g cur).length := List.length_mergeSort _
      _ ≤ g.blocks.length := (List.filter_sublist _).length_le
  have hbound : ∀ x ∈ (revPreds g cur).map (blockWeight g),
      x ≤ (g.blocks.length + 2) ^ cur.start_ea := by
    intro x hx
    obtain ⟨p, hp, rfl⟩ := List.mem_map.mp hx
    have hlt : p.start_ea < cur.start_ea := by
      have := (List.mem_filter.mp hp).2
      simpa using this
    exact Nat.pow_le_pow_right (by omega) (by omega)
  have hsum := List.sum_le_card_nsmul _ _ hbound
  rw [List.length_map] at hsum
  have hkey : ((revPreds g cur).map (blockWeight g)).sum
      < (g.blocks.length + 2) ^ (cur.start_ea + 1) := by
    calc ((revPreds g cur).map (blockWeight g)).sum
        ≤ (revPreds g cur).length * (g.blocks.length + 2) ^ cur.start_ea := by
          simpa [smul_eq_mul] using hsum
      _ ≤ g.blocks.length * (g.blocks.length + 2) ^ cur.start_ea :=
          Nat.mul_le_mul_right _ hlen
      _ < (g.blocks.length + 2) * (g.blocks.length + 2) ^ cur.start_ea := by
          have : 0 < (g.blocks.length + 2) ^ cur.start_ea := Nat.pos_pow_of_pos _ (by omega)
          exact Nat.mul_lt_mul_of_lt_of_le (by omega) (le_refl _) this
      _ = (g.blocks.length + 2) ^ (cur.start_ea + 1) := by ring
  simp only [blockWeight]
  omega

theorem sumWeight_comm (g : FlowGraph) (a b : List BasicBlock) :
    sumWeight g (a ++ b) = sumWeight g (b ++ a) := by
  simp [sumWeight, List.map_append, List.sum_append, Nat.add_comm]

theorem dfsRevLoop_length_le (g : FlowGraph) :
    ∀ wl, (dfsRevLoop g wl).length ≤ sumWeight g wl := by
  suffices h : ∀ n wl, sumWeight g wl ≤ n → (dfsRevLoop g wl).length ≤ sumWeight g wl by
    exact fun wl => h (sumWeight g wl) wl le_rfl
  intro n
  induction n with
  | zero =>
    intro wl h0
    match wl with
    | [] => simp [dfsRevLoop]
    | cur :: rest =>
      exfalso
      have hpos : 0 < blockWeight g cur := Nat.pos_pow_of_pos _ (by omega)
      have : blockWeight g cur ≤ sumWeight g (cur :: rest) := by
        simp [sumWeight]
      omega
  | succ n ih =>
    intro wl hle
    match wl with
    | [] => simp [dfsRevLoop]
    | cur :: rest =>
      rw [dfsRevLoop]
      have hlt := sumWeight_revPreds_lt g cur rest
      have hrec := ih (revPreds g cur ++ rest) (by omega)
      simp only [List.length_cons]
      omega

theorem bfsRevLoop_length_le (g : FlowGraph) :
    ∀ wl, (bfsRevLoop g wl).length ≤ sumWeight g wl := by
  suffices h : ∀ n wl, sumWeight g wl ≤ n → (bfsRevLoop g wl).length ≤ sumWeight g wl by
    exact fun wl => h (sumWeight g wl) wl le_rfl
  intro n
  induction n with
  | zero =>
    intro wl h0
    match wl with
    | [] => simp [bfsRevLoop]
    | cur :: rest =>
      exfalso
      have hpos : 0 < blockWeight g cur := Nat.pos_pow_of_pos _ (by omega)
      have : blockWeight g cur ≤ sumWeight g (cur :: rest) := by
        simp [sumWeight]
      omega
  | succ n ih =>
    intro wl hle
    match wl with
    | [] => simp [bfsRevLoop]
    | cur :: rest =>
      rw [bfsRevLoop]
      have hlt : sumWeight g (rest ++ revPreds g cur) < sumWeight g (cur :: rest) := by
        rw [sumWeight_comm]
        exact sumWeight_revPreds_lt g cur rest
      have hrec := ih (rest ++ revPreds g cur) (by omega)
      simp only [List.length_cons]
      omega

/-- C8: reverse traversal follows a predecessor only when its `start_ea` is
strictly smaller, so (a) a traversal seeded at a block all of whose
predecessors have `start_ea` at least its own yields exactly that block —
the larger-start predecessor is excluded and never revisited — and (b) on
every finite graph, cyclic or not, both reverse traversals terminate: the
yielded sequence is bounded by the explicit weight `sumWeight` of the
initial worklist. -/
theorem c8_cycle_suppression :
    (∀ (g : FlowGraph) (ea : Nat) (b : BasicBlock), 0 < ea →
      find_block g ea = some b →
      (∀ p ∈ predBlocks g b, b.start_ea ≤ p.start_ea) →
      dfs_reverse g (some ea) = .ok [b] ∧ bfs_reverse g (some ea) = .ok [b]) ∧
    (∀ (g : FlowGraph) (wl : List BasicBlock),
      (dfsRevLoop g wl).length ≤ sumWeight g wl ∧
      (bfsRevLoop g wl).length ≤ sumWeight g wl) := by
  constructor
  · intro g ea b hpos hf hpred
    have htr : truthy (some ea) = true := by
      simp [truthy]
      omega
    have hrev : revPreds g b = [] := by
      apply List.filter_eq_nil_iff.mpr
      intro p hp
      have hpmem : p ∈ predBlocks g b := List.mem_mergeSort.mp hp
      have := hpred p hpmem
      simp only [decide_eq_true_eq]
      omega
    constructor
    · rw [dfs_reverse, if_pos htr]
      simp only [Option.getD_some, hf]
      rw [dfsRevLoop, hrev, List.nil_append, dfsRevLoop]
    · rw [bfs_reverse, if_pos htr]
      simp only [Option.getD_some, hf]
      rw [bfsRevLoop, hrev, List.append_nil, bfsRevLoop]
  · intro g wl
    exact ⟨dfsRevLoop_length_le g wl, bfsRevLoop_length_le g wl⟩

/-- C8 witness: the back-edge graph `gBack`, whose lower block's only
predecessor has the larger start address. -/
theorem c8_cycle_suppression_witness :
    (0 < 15 ∧ find_block gBack 15 = some bBack ∧
      (∀ p ∈ predBlocks gBack bBack, bBack.start_ea ≤ p.start_ea)) ∧
    dfs_reverse gBack (some 15) = .ok [bBack] ∧
    bfs_reverse gBack (some 15) = .ok [bBack] := by
  have h := c8_cycle_suppression.1 gBack 15 bBack (by omega) rfl (by decide)
  exact ⟨⟨by omega, rfl, by decide⟩, h.1, h.2⟩

theorem foldl_execIp_length (r : Nat) :
    ∀ (ips : List Nat) (st : Store),
      (ips.foldl (fun s ip => execIp s r ip) st).length = st.length := by
  intro ips
  induction ips with
  | nil => intro st; rfl
  | cons ip rest ih =>
    intro st
    rw [List.foldl_cons, ih]
    simp [execIp, writeRef]

theorem fillSteps_ok {insns : List Nat} {ctx : Option Nat} {lo hi : Nat}
    {st st' : Store} {c : Nat}
    (h : fillSteps insns ctx lo hi st = .ok (st', c)) :
    st'.length = st.length ∧ c = (headsIn insns lo hi).length := by
  rw [fillSteps.eq_def] at h
  dsimp only at h
  split at h
  · next hemp =>
    have := Except.ok.inj h
    have h1 : st' = st := (congrArg Prod.fst this).symm
    have h2 : c = 0 := (congrArg Prod.snd this).symm
    subst h1; subst h2
    constructor
    · rfl
    · rw [List.isEmpty_iff.mp hemp]
      rfl
  · split at h
    · exact absurd h (by simp)
    · next r =>
      have := Except.ok.inj h
      have h1 : st' = (headsIn insns lo hi).foldl (fun s ip => execIp s r ip) st :=
        (congrArg Prod.fst this).symm
      have h2 : c = (headsIn insns lo hi).length := (congrArg Prod.snd this).symm
      subst h1
      exact ⟨foldl_execIp_length r _ st, h2⟩

theorem pbValid_ctx {bb : BasicBlock} {prev : Option PathBlock} {rr : Nat}
    {e : Option Nat} {st : Store}
    (h : pbValid (.mk bb prev (some rr) e) st = true) : rr < st.length := by
  rw [pbValid.eq_def] at h
  have := (Bool.and_eq_true _ _).mp h
  simpa using this.1

theorem pbValid_prev {bb : BasicBlock} {p : PathBlock} {c e : Option Nat} {st : Store}
    (h : pbValid (.mk bb (some p) c e) st = true) : pbValid p st = true := by
  rw [pbValid.eq_def] at h
  exact ((Bool.and_eq_true _ _).mp h).2

theorem cpu_post (insns : List Nat) (pb : PathBlock) (ea : Option Nat) (st : Store)
    (r : Option Nat) (pb' : PathBlock) (st' : Store) (c : Nat)
    (hval : pbValid pb st = true)
    (h : cpu_context insns pb ea st = .ok (r, pb', st', c)) :
    (∀ a, ea = some a → pb.bb.start_ea ≤ a ∧ a < pb.bb.end_ea) ∧
    pb'.bb = pb.bb ∧
    (∃ endA, endOf insns pb.bb ea = some endA ∧ pb'.context_ea = some endA) ∧
    (∀ rv, r = some rv → ∃ rc stB, pb'.context = some rc ∧ rc < stB.length ∧
      st' = stB ++ [readRef stB rc] ∧ rv = stB.length) := by
  match pb, hval, h with
  | .mk bb prev ctx0 ctxEa0, hval, h =>
    rw [cpu_context.eq_def] at h
    dsimp only at h
    split at h
    · exact absurd h (by simp)
    next hinr =>
    have hrange : ∀ a, ea = some a → bb.start_ea ≤ a ∧ a < bb.end_ea := by
      intro a ha
      subst ha
      simpa using hinr
    split at h
    · exact absurd h (by simp)
    next endA hend =>
    split at h
    · next heq =>
      cases ctx0 with
      | none =>
        simp only [deepcopyOpt] at h
        simp only [Except.ok.injEq, Prod.mk.injEq] at h
        obtain ⟨hr, hpb, hst, hc⟩ := h
        subst hr; subst hpb; subst hst
        exact ⟨hrange, rfl, ⟨endA, hend, heq⟩, fun rv hrv => absurd hrv (by simp)⟩
      | some rc =>
        simp only [deepcopyOpt, allocRef] at h
        simp only [Except.ok.injEq, Prod.mk.injEq] at h
        obtain ⟨hr, hpb, hst, hc⟩ := h
        subst hr; subst hpb; subst hst
        refine ⟨hrange, rfl, ⟨endA, hend, heq⟩, ?_⟩
        intro rv hrv
        exact ⟨rc, st, rfl, pbValid_ctx hval, rfl, (Option.some.inj hrv).symm⟩
    next hne =>
    split at h
    · exact absurd h (by simp)
    next b hb =>
    split at h
    · exact absurd h (by simp)
    next ctx1 prev1 stA cA hInit =>
    split at h
    · exact absurd h (by simp)
    next stB cB hfill =>
    have hstAB : stB.length = stA.length := (fillSteps_ok hfill).1
    cases ctx1 with
    | none =>
      simp only [deepcopyOpt] at h
      simp only [Except.ok.injEq, Prod.mk.injEq] at h
      obtain ⟨hr, hpb, hst, hc⟩ := h
      subst hr; subst hpb; subst hst
      exact ⟨hrange, rfl, ⟨endA, hend, rfl⟩, fun rv hrv => absurd hrv (by simp)⟩
    | some rc =>
      simp only [deepcopyOpt, allocRef] at h
      simp only [Except.ok.injEq, Prod.mk.injEq] at h
      obtain ⟨hr, hpb, hst, hc⟩ := h
      subst hr; subst hpb; subst hst
      have hrc : rc < stB.length := by
        rw [hstAB]
        by_cases hbv : b = true
        · rw [if_pos hbv] at hInit
          cases prev with
          | none =>
            rw [ctxInit.eq_def] at hInit
            simp only [allocRef] at hInit
            simp only [Except.ok.injEq, Prod.mk.injEq] at hInit
            obtain ⟨h1, h2, h3, h4⟩ := hInit
            rw [← h3, ← Option.some.inj h1]
            simp
          | some p =>
            rw [ctxInit.eq_def] at hInit
            dsimp only at hInit
            split at hInit
            · exact absurd hInit (by simp)
            next rp p' stp cnt hp =>
            simp only [Except.ok.injEq, Prod.mk.injEq] at hInit
            obtain ⟨h1, h2, h3, h4⟩ := hInit
            have hpost := cpu_post insns p none st rp p' stp cnt (pbValid_prev hval) hp
            obtain ⟨rc', stB', _, hlt, hsteq, hrveq⟩ := hpost.2.2.2 rc h1
            rw [← h3, hsteq, hrveq]
            simp
        · rw [if_neg hbv] at hInit
          simp only [Except.ok.injEq, Prod.mk.injEq] at hInit
          obtain ⟨h1, h2, h3, h4⟩ := hInit
          rw [← h3]
          exact pbValid_ctx (h1 ▸ hval)
      refine ⟨hrange, rfl, ⟨endA, hend, rfl⟩, ?_⟩
      intro rv hrv
      exact ⟨rc, stB, rfl, hrc, rfl, (Option.some.inj hrv).symm⟩
termination_by sizeOf pb

theorem readRef_append_lt (l : Store) (x : Trace) (i : Nat) (hi : i < l.length) :
    readRef (l ++ [x]) i = readRef l i :=
  List.getD_append l [x] [] i hi

theorem readRef_append_self (l : Store) (x : Trace) :
    readRef (l ++ [x]) l.length = x := by
  rw [readRef, List.getD_append_right _ _ _ _ (le_refl _)]
  simp

theorem readRef_writeRef_ne (st : Store) (i j : Nat) (v : Trace) (h : i ≠ j) :
    readRef (writeRef st j v) i = readRef st i := by
  simp only [readRef, writeRef]
  rw [List.getD_eq_getElem?_getD, List.getD_eq_getElem?_getD,
    List.getElem?_set_ne (by omega)]

/-- C7: `cpu_context` is idempotent and isolating — a second call with the
same address on the (updated) `PathBlock` returns a value-equal context
without re-executing anything (`c2 = 0`) and without changing the node, and
both returned references are fresh copies distinct from the internal cached
reference, so mutating either returned context leaves the cache unchanged. -/
theorem c7_cpu_context_idempotent (insns : List Nat) (pb : PathBlock)
    (ea : Option Nat) (st : Store) (r1 : Nat) (pb1 : PathBlock) (st1 : Store) (c1 : Nat)
    (r2 : Option Nat) (pb2 : PathBlock) (st2 : Store) (c2 : Nat)
    (hval : pbValid pb st = true)
    (h1 : cpu_context insns pb ea st = .ok (some r1, pb1, st1, c1))
    (h2 : cpu_context insns pb1 ea st1 = .ok (r2, pb2, st2, c2)) :
    ∃ rv rc, r2 = some rv ∧ pb2 = pb1 ∧ c2 = 0 ∧
      readRef st2 r1 = readRef st2 rv ∧
      pb1.context = some rc ∧ rv ≠ rc ∧ r1 ≠ rc ∧
      (∀ v, readRef (writeRef st2 rv v) rc = readRef st2 rc) ∧
      (∀ v, readRef (writeRef st2 r1 v) rc = readRef st2 rc) := by
  have hpost := cpu_post insns pb ea st (some r1) pb1 st1 c1 hval h1
  obtain ⟨hrange, hbb, ⟨endA, hend, hcea⟩, hsome⟩ := hpost
  obtain ⟨rc, stB, hctx, hrc, hst1, hr1⟩ := hsome r1 rfl
  obtain ⟨bb1, prev1, c1o, e1o⟩ := pb1
  have hbb1 : bb1 = pb.bb := hbb
  have hc1o : c1o = some rc := hctx
  have he1o : e1o = some endA := hcea
  subst hc1o; subst he1o
  rw [cpu_context.eq_def] at h2
  dsimp only at h2
  split at h2
  · next hfall =>
    exfalso
    match ea, hrange, hfall with
    | none, _, hfall => simp at hfall
    | some a, hrange, hfall =>
      rw [hbb1] at hfall
      have := hrange a rfl
      simp only [decide_eq_false_iff_not] at hfall
      exact hfall this
  · next hinr2 =>
    have hend1 : endOf insns bb1 ea = some endA := by rw [hbb1]; exact hend
    split at h2
    · next hnone => rw [hend1] at hnone; exact absurd hnone (by simp)
    · next endA' hendA' =>
      rw [hend1] at hendA'
      have heA : endA' = endA := (Option.some.inj hendA').symm
      subst heA
      split at h2
      · next heq2 =>
        simp only [deepcopyOpt, allocRef] at h2
        simp only [Except.ok.injEq, Prod.mk.injEq] at h2
        obtain ⟨hr2, hpb2, hst2, hc2⟩ := h2
        subst hr2; subst hpb2; subst hst2; subst hc2
        have hlen1 : st1.length = stB.length + 1 := by
          rw [hst1]
          simp
        have hT1 : readRef st1 rc = readRef stB rc := by
          rw [hst1]
          exact readRef_append_lt stB _ rc hrc
        refine ⟨st1.length, rc, rfl, rfl, rfl, ?_, rfl, by omega, by omega, ?_, ?_⟩
        · have hv1 : readRef (st1 ++ [readRef st1 rc]) r1 = readRef st1 r1 :=
            readRef_append_lt st1 _ r1 (by omega)
          have hv2 : readRef (st1 ++ [readRef st1 rc]) st1.length = readRef st1 rc :=
            readRef_append_self st1 _
          rw [hv1, hv2, hr1, hst1, readRef_append_self,
            readRef_append_lt stB _ rc hrc]
        · intro v
          rw [readRef_writeRef_ne _ _ _ _ (by omega)]
        · intro v
          rw [readRef_writeRef_ne _ _ _ _ (by omega)]
      · next hne2 =>
        exact absurd rfl hne2

/-- C7 witness: block `[0,8)` with instruction heads every two addresses,
querying address 4 twice on a fresh node. -/
theorem c7_cpu_context_idempotent_witness :
    ∃ r2 pb2 st2 c2 rv rc,
      pbValid (.mk ⟨0, 8, [], []⟩ none none none) [] = true ∧
      cpu_context [0, 2, 4, 6, 8] (.mk ⟨0, 8, [], []⟩ none none none) (some 4) []
        = .ok (some 1, .mk ⟨0, 8, [], []⟩ none (some 0) (some 6), [[0, 2, 4], [0, 2, 4]], 3) ∧
      cpu_context [0, 2, 4, 6, 8] (.mk ⟨0, 8, [], []⟩ none (some 0) (some 6))
          (some 4) [[0, 2, 4], [0, 2, 4]] = .ok (r2, pb2, st2, c2) ∧
      r2 = some rv ∧ pb2 = .mk ⟨0, 8, [], []⟩ none (some 0) (some 6) ∧ c2 = 0 ∧
      readRef st2 1 = readRef st2 rv ∧
      (PathBlock.mk ⟨0, 8, [], []⟩ none (some 0) (some 6)).context = some rc ∧
      rv ≠ rc ∧ 1 ≠ rc ∧
      (∀ v, readRef (writeRef st2 rv v) rc = readRef st2 rc) ∧
      (∀ v, readRef (writeRef st2 1 v) rc = readRef st2 rc) := by
  have hval : pbValid (.mk ⟨0, 8, [], []⟩ none none none) [] = true := by
    rw [pbValid.eq_def]
    rfl
  have h1 : cpu_context [0, 2, 4, 6, 8] (.mk ⟨0, 8, [], []⟩ none none none) (some 4) []
      = .ok (some 1, .mk ⟨0, 8, [], []⟩ none (some 0) (some 6), [[0, 2, 4], [0, 2, 4]], 3) := by
    rw [cpu_context.eq_def]
    simp [endOf, nextHead, ctxInit, fillSteps, headsIn, deepcopyOpt, allocRef,
      execIp, writeRef, readRef, List.filter, List.find?]
  have h2 : cpu_context [0, 2, 4, 6, 8] (.mk ⟨0, 8, [], []⟩ none (some 0) (some 6))
      (some 4) [[0, 2, 4], [0, 2, 4]]
      = .ok (some 2, .mk ⟨0, 8, [], []⟩ none (some 0) (some 6),
          [[0, 2, 4], [0, 2, 4], [0, 2, 4]], 0) := by
    rw [cpu_context.eq_def]
    simp [endOf, nextHead, deepcopyOpt, allocRef, readRef, List.filter, List.find?]
  obtain ⟨rv, rc, hx⟩ := c7_cpu_context_idempotent [0, 2, 4, 6, 8]
    (.mk ⟨0, 8, [], []⟩ none none none) (some 4) [] 1
    (.mk ⟨0, 8, [], []⟩ none (some 0) (some 6)) [[0, 2, 4], [0, 2, 4]] 3
    (some 2) (.mk ⟨0, 8, [], []⟩ none (some 0) (some 6))
    [[0, 2, 4], [0, 2, 4], [0, 2, 4]] 0 hval h1 h2
  exact ⟨some 2, .mk ⟨0, 8, [], []⟩ none (some 0) (some 6),
    [[0, 2, 4], [0, 2, 4], [0, 2, 4]], 0, rv, rc, hval, h1, h2,
    hx.1, hx.2.1, hx.2.2.1, hx.2.2.2.1, hx.2.2.2.2.1, hx.2.2.2.2.2.1,
    hx.2.2.2.2.2.2.1, hx.2.2.2.2.2.2.2.1, hx.2.2.2.2.2.2.2.2⟩

theorem nextHead_gt {insns : List Nat} {a e : Nat} (h : nextHead insns a = some e) :
    a < e := by
  have := List.find?_some h
  simpa using this

theorem nextHead_mono :
    ∀ (insns : List Nat), List.Pairwise (· ≤ ·) insns →
      ∀ a1 a2 e1 e2, a1 ≤ a2 → nextHead insns a1 = some e1 →
        nextHead insns a2 = some e2 → e1 ≤ e2 := by
  intro insns
  induction insns with
  | nil =>
    intro _ a1 a2 e1 e2 _ h1 _
    simp [nextHead] at h1
  | cons x rest ih =>
    intro hs a1 a2 e1 e2 h12 h1 h2
    by_cases hx1 : a1 < x
    · rw [nextHead, List.find?_cons_of_pos _ (by simpa using hx1)] at h1
      have he1 : e1 = x := (Option.some.inj h1).symm
      by_cases hx2 : a2 < x
      · rw [nextHead, List.find?_cons_of_pos _ (by simpa using hx2)] at h2
        have he2 : e2 = x := (Option.some.inj h2).symm
        omega
      · rw [nextHead, List.find?_cons_of_neg _ (by simpa using hx2)] at h2
        have hmem : e2 ∈ rest := List.mem_of_find?_eq_some h2
        have := (List.pairwise_cons.mp hs).1 e2 hmem
        omega
    · have hx2 : ¬ a2 < x := by omega
      rw [nextHead, List.find?_cons_of_neg _ (by simpa using hx1)] at h1
      rw [nextHead, List.find?_cons_of_neg _ (by simpa using hx2)] at h2
      exact ih (List.pairwise_cons.mp hs).2 a1 a2 e1 e2 h12 h1 h2

theorem headsIn_split (insns : List Nat) (lo mid hi : Nat)
    (hlm : lo ≤ mid) (hmh : mid ≤ hi) :
    (headsIn insns lo mid).length + (headsIn insns mid hi).length
      = (headsIn insns lo hi).length := by
  induction insns with
  | nil => rfl
  | cons a rest ih =>
    simp only [headsIn, List.filter_cons] at ih ⊢
    by_cases hB : a < mid
    · have hC : ¬ mid ≤ a := by omega
      by_cases hA : lo ≤ a <;> by_cases hD : a < hi <;>
        simp [hA, hB, hC, hD] at ih ⊢ <;> omega
    · have hC : mid ≤ a := by omega
      by_cases hA : lo ≤ a <;> by_cases hD : a < hi <;>
        simp [hA, hB, hC, hD] at ih ⊢ <;> omega

/-- C6: querying `cpu_context` at `addr1` and then at a later `addr2` in the
same block replays only the instructions in `[next_head(addr1),
next_head(addr2))` the second time — the combined number of
`processor.execute` calls across the two calls equals the number a single
call up to `addr2` makes on the same fresh node. -/
theorem c6_incremental_fill (insns : List Nat) (bb : BasicBlock)
    (prev : Option PathBlock) (st : Store) (a1 a2 : Nat)
    (r1 : Nat) (pb1 : PathBlock) (st1 : Store) (c1 : Nat)
    (r2 : Option Nat) (pb2 : PathBlock) (st2 : Store) (c2 : Nat)
    (r3 : Option Nat) (pb3 : PathBlock) (st3 : Store) (c3 : Nat)
    (hsorted : List.Pairwise (· ≤ ·) insns) (h12 : a1 < a2)
    (h1 : cpu_context insns (.mk bb prev none none) (some a1) st
      = .ok (some r1, pb1, st1, c1))
    (h2 : cpu_context insns pb1 (some a2) st1 = .ok (r2, pb2, st2, c2))
    (h3 : cpu_context insns (.mk bb prev none none) (some a2) st
      = .ok (r3, pb3, st3, c3)) :
    c1 + c2 = c3 := by
  rw [cpu_context.eq_def] at h1
  dsimp only at h1
  split at h1
  · exact absurd h1 (by simp)
  next hinr1 =>
  have hb1 : bb.start_ea ≤ a1 ∧ a1 < bb.end_ea := by simpa using hinr1
  split at h1
  · exact absurd h1 (by simp)
  next e1 hend1 =>
  have hnh1 : nextHead insns a1 = some e1 := hend1
  rw [if_neg (by simp)] at h1
  simp only [Option.isNone_none, eq_self_iff_true, if_true] at h1
  split at h1
  · exact absurd h1 (by simp)
  next ctx1 prev1 stA cA hInit1 =>
  split at h1
  · exact absurd h1 (by simp)
  next stB1 cB1 hfill1 =>
  have hcB1 : cB1 = (headsIn insns bb.start_ea e1).length := (fillSteps_ok hfill1).2
  simp only [Except.ok.injEq, Prod.mk.injEq] at h1
  obtain ⟨h1r, h1pb, h1st, h1c⟩ := h1
  match ctx1, hInit1, h1r, h1pb with
  | none, hInit1, h1r, h1pb => exact absurd h1r (by simp [deepcopyOpt])
  | some rc1, hInit1, h1r, h1pb =>
  subst h1pb
  -- unfold the single call up to a2
  rw [cpu_context.eq_def] at h3
  dsimp only at h3
  split at h3
  · exact absurd h3 (by simp)
  next hinr3 =>
  split at h3
  · exact absurd h3 (by simp)
  next e3 hend3 =>
  have hnh3 : nextHead insns a2 = some e3 := hend3
  rw [if_neg (by simp)] at h3
  simp only [Option.isNone_none, eq_self_iff_true, if_true] at h3
  rw [hInit1] at h3
  dsimp only at h3
  split at h3
  · exact absurd h3 (by simp)
  next stB3 cB3 hfill3 =>
  have hcB3 : cB3 = (headsIn insns bb.start_ea e3).length := (fillSteps_ok hfill3).2
  simp only [Except.ok.injEq, Prod.mk.injEq] at h3
  obtain ⟨h3r, h3pb, h3st, h3c⟩ := h3
  -- facts about the two endpoints
  have hle13 : e1 ≤ e3 := nextHead_mono insns hsorted a1 a2 e1 e3 (by omega) hnh1 hnh3
  have hs1 : bb.start_ea ≤ e1 := le_trans hb1.1 (le_of_lt (nextHead_gt hnh1))
  -- unfold the second call on the filled node
  rw [cpu_context.eq_def] at h2
  dsimp only at h2
  split at h2
  · exact absurd h2 (by simp)
  next hinr2 =>
  split at h2
  · exact absurd h2 (by simp)
  next e2 hend2 =>
  have hnh2 : nextHead insns a2 = some e2 := hend2
  have he23 : e2 = e3 := by
    rw [hnh2] at hnh3
    exact Option.some.inj hnh3
  subst he23
  split at h2
  · next heq2 =>
    -- fast path: the two endpoints coincide, no instruction is re-applied
    have hee : e1 = e2 := Option.some.inj heq2
    simp only [Except.ok.injEq, Prod.mk.injEq] at h2
    obtain ⟨_, _, _, h2c⟩ := h2
    rw [hee] at hcB1
    omega
  · next hne2 =>
    have hne13 : e1 ≠ e2 := fun hh => hne2 (by rw [hh])
    simp only [Option.isNone_some, Bool.false_eq_true, if_false] at h2
    have hnotlt : ¬ (decide (e2 < e1) = true) := by simp; omega
    simp only [if_neg hnotlt, Option.getD_some] at h2
    split at h2
    · exact absurd h2 (by simp)
    next stB2 cB2 hfill2 =>
    have hcB2 : cB2 = (headsIn insns e1 e2).length := (fillSteps_ok hfill2).2
    simp only [Except.ok.injEq, Prod.mk.injEq] at h2
    obtain ⟨_, _, _, h2c⟩ := h2
    have hpart := headsIn_split insns bb.start_ea e1 e2 hs1 hle13
    omega

/-- C6 witness: block `[0,8)`, heads every two addresses, `addr1 = 2`,
`addr2 = 6`: the two calls make `2 + 2` apply calls, exactly the `4` a
single call up to `addr2` makes. -/
theorem c6_incremental_fill_witness :
    List.Pairwise (· ≤ ·) [0, 2, 4, 6, 8] ∧ 2 < 6 ∧
    (cpu_context [0, 2, 4, 6, 8] (.mk ⟨0, 8, [], []⟩ none none none) (some 2) []
      = .ok (some 1, .mk ⟨0, 8, [], []⟩ none (some 0) (some 4), [[0, 2], [0, 2]], 2)) ∧
    (cpu_context [0, 2, 4, 6, 8] (.mk ⟨0, 8, [], []⟩ none (some 0) (some 4)) (some 6)
        [[0, 2], [0, 2]]
      = .ok (some 2, .mk ⟨0, 8, [], []⟩ none (some 0) (some 8),
          [[0, 2, 4, 6], [0, 2], [0, 2, 4, 6]], 2)) ∧
    (cpu_context [0, 2, 4, 6, 8] (.mk ⟨0, 8, [], []⟩ none none none) (some 6) []
      = .ok (some 1, .mk ⟨0, 8, [], []⟩ none (some 0) (some 8),
          [[0, 2, 4, 6], [0, 2, 4, 6]], 4)) ∧
    2 + 2 = 4 := by
  have hs : List.Pairwise (· ≤ ·) ([0, 2, 4, 6, 8] : List Nat) := by decide
  have h1 : cpu_context [0, 2, 4, 6, 8] (.mk ⟨0, 8, [], []⟩ none none none) (some 2) []
      = .ok (some 1, .mk ⟨0, 8, [], []⟩ none (some 0) (some 4), [[0, 2], [0, 2]], 2) := by
    rw [cpu_context.eq_def]
    simp [endOf, nextHead, ctxInit, fillSteps, headsIn, deepcopyOpt, allocRef,
      execIp, writeRef, readRef, List.filter, List.find?]
  have h2 : cpu_context [0, 2, 4, 6, 8] (.mk ⟨0, 8, [], []⟩ none (some 0) (some 4))
      (some 6) [[0, 2], [0, 2]]
      = .ok (some 2, .mk ⟨0, 8, [], []⟩ none (some 0) (some 8),
          [[0, 2, 4, 6], [0, 2], [0, 2, 4, 6]], 2) := by
    rw [cpu_context.eq_def]
    simp [endOf, nextHead, ctxInit, fillSteps, headsIn, deepcopyOpt, allocRef,
      execIp, writeRef, readRef, List.filter, List.find?]
  have h3 : cpu_context [0, 2, 4, 6, 8] (.mk ⟨0, 8, [], []⟩ none none none) (some 6) []
      = .ok (some 1, .mk ⟨0, 8, [], []⟩ none (some 0) (some 8),
          [[0, 2, 4, 6], [0, 2, 4, 6]], 4) := by
    rw [cpu_context.eq_def]
    simp [endOf, nextHead, ctxInit, fillSteps, headsIn, deepcopyOpt, allocRef,
      execIp, writeRef, readRef, List.filter, List.find?]
  exact ⟨hs, by omega, h1, h2, h3,
    c6_incremental_fill [0, 2, 4, 6, 8] ⟨0, 8, [], []⟩ none [] 2 6
      1 (.mk ⟨0, 8, [], []⟩ none (some 0) (some 4)) [[0, 2], [0, 2]] 2
      (some 2) (.mk ⟨0, 8, [], []⟩ none (some 0) (some 8))
      [[0, 2, 4, 6], [0, 2], [0, 2, 4, 6]] 2
      (some 1) (.mk ⟨0, 8, [], []⟩ none (some 0) (some 8))
      [[0, 2, 4, 6], [0, 2, 4, 6]] 4
      hs (by omega) h1 h2 h3⟩
